import Mathlib

/-!
Shallow embedding of the incremental batch grammar parser in
src/token2json/token2json.py (classes TorchGrammar and
TorchGrammarBatchParser).

Modelling conventions:
* token IDs are Int (Python ints);
* each batch slot is a Slot holding its parse stack (head of the list is
  the top frame, list length is the Python depth pointer ptr), the accepted
  token buffer (the first lens entries of seqs) and the legal-next cache
  (the first next_lens entries of next_cache); the fixed overall arrays of
  the source store, beyond those prefixes, only stale values that no code
  path ever reads, so the prefixes are the whole observable state;
* Python exceptions (KeyError on a missing rule name, IndexError on an
  out-of-range tensor index or production position, ValueError from
  expand_literal, the shape error when more legal tokens than cache
  capacity are written) are modelled by Option with none as failure;
* the repetition predicate stored in a rule dict is kept as RawPred,
  normalized at every use site through wrap_pred exactly as the source
  calls self.g.wrap_pred(raw_pred).
-/

namespace Token2Json

/-- The raw repetition bound stored in a rule dict: a callable, or a
number m standing for the predicate cnt >= m. -/
inductive RawPred where
  | fn (p : Nat → Bool)
  | num (m : Int)

/-- A grammar token: int literal, tuple (range or enumeration), embedded
object name (str), or repeat group (dict with a single entry). -/
inductive Tok where
  | lit (id : Int)
  | tup (ids : List Int)
  | ref (name : String)
  | rep (sub : String) (rawPred : RawPred)

/-- TorchGrammar.wrap_pred: return raw unchanged if callable, else build
the predicate cnt >= m. -/
def wrap_pred : RawPred → Nat → Bool
  | .fn p => p
  | .num m => fun cnt => decide (m ≤ (cnt : Int))

/-- Inclusive integer range list(range(lo, hi + 1)). -/
def rangeIncl (lo hi : Int) : List Int :=
  (List.range (hi + 1 - lo).toNat).map (fun k => lo + Int.ofNat k)

/-- TorchGrammar.expand_literal: int gives a singleton, a 2-tuple gives an
inclusive range, any other tuple gives its elements in order, and any
other shape raises ValueError (modelled as none). -/
def expand_literal : Tok → Option (List Int)
  | .lit id => some [id]
  | .tup ids =>
      match ids with
      | [lo, hi] => some (rangeIncl lo hi)
      | _ => some ids
  | .ref _ => none
  | .rep _ _ => none

/-- The static grammar: rules in registration order. The position of a
name in this list is its stable integer index (symbol_to_index /
index_to_symbol), and lookup by name returns its production (raw_rules). -/
structure TorchGrammar where
  rules : List (String × List Tok)

/-- Position of the first rule with the given name (symbol_to_index). -/
def symbolToIndexAux : List (String × List Tok) → String → Option Nat
  | [], _ => none
  | p :: ps, n => if p.1 = n then some 0 else (symbolToIndexAux ps n).map (· + 1)

def TorchGrammar.symbolToIndex (g : TorchGrammar) (n : String) : Option Nat :=
  symbolToIndexAux g.rules n

/-- Name of the rule at a given index (index_to_symbol). -/
def TorchGrammar.indexToSymbol (g : TorchGrammar) (i : Nat) : Option String :=
  (g.rules.get? i).map Prod.fst

/-- Production registered under a name (raw_rules dict lookup). -/
def rawRulesAux : List (String × List Tok) → String → Option (List Tok)
  | [], _ => none
  | p :: ps, n => if p.1 = n then some p.2 else rawRulesAux ps n

def TorchGrammar.rawRules (g : TorchGrammar) (n : String) : Option (List Tok) :=
  rawRulesAux g.rules n

/-- TorchGrammar.add_object: register a production; a fresh name gets the
next index, re-registration overwrites the production keeping the index. -/
def TorchGrammar.addObject (g : TorchGrammar) (name : String) (toks : List Tok) :
    TorchGrammar :=
  if (g.rules.map Prod.fst).contains name then
    ⟨g.rules.map (fun p => if p.1 = name then (name, toks) else p)⟩
  else
    ⟨g.rules ++ [(name, toks)]⟩

def gEmpty : TorchGrammar := ⟨[]⟩

/-- Tunable limits of TorchGrammarBatchParser.__init__. -/
def max_d : Nat := 16
def max_l : Nat := 128
def max_n : Nat := 32

/-- A parse stack frame (object_index, token_pointer, repeat_count). -/
structure Frame where
  obj : Nat
  ptr : Nat
  rep : Nat
deriving DecidableEq, Repr

/-- One batch slot: parse stack (head = top frame, length = depth pointer),
accepted-token buffer, legal-next cache. -/
structure Slot where
  stack : List Frame
  seq : List Int
  cache : List Int
deriving DecidableEq, Repr

/-- raw_rules[sub][0] expanded: the first literal expansion of an object. -/
def firstExpansion (g : TorchGrammar) (name : String) : Option (List Int) := do
  let r ← g.rawRules name
  let f ← r.head?
  expand_literal f

/-- TorchGrammarBatchParser._compute_valid: raw list of valid next literals
for the current token. -/
def compute_valid (g : TorchGrammar) (tok : Tok) (repCnt : Nat)
    (tokens : List Tok) (idx : Nat) : Option (List Int) :=
  match tok with
  | .rep sub rawPred => do
      let ex ←
        match tokens.get? (idx + 1) with
        | some (.ref n) => firstExpansion g n
        | some nxt => expand_literal nxt
        | none => some []
      let rp ← if wrap_pred rawPred repCnt then some [] else firstExpansion g sub
      some (ex ++ rp)
  | .ref n => firstExpansion g n
  | t => expand_literal t

/-- TorchGrammarBatchParser._pop_and_advance: pop the top frame; advance the
parent pointer unless the parent sits on a repeat group whose predicate is
still unsatisfied. -/
def pop_and_advance (g : TorchGrammar) : List Frame → Option (List Frame)
  | [] => none
  | _ :: rest =>
      match rest with
      | [] => some []
      | parent :: rs => do
          let nm ← g.indexToSymbol parent.obj
          let tokens ← g.rawRules nm
          let token ← tokens.get? parent.ptr
          match token with
          | .rep _ rawPred =>
              if wrap_pred rawPred parent.rep then
                some ({ parent with ptr := parent.ptr + 1, rep := 0 } :: rs)
              else
                some (parent :: rs)
          | _ => some ({ parent with ptr := parent.ptr + 1, rep := 0 } :: rs)

/-- TorchGrammarBatchParser._apply_token: advance one slot's stack after
accepting tok, where curr is the current token of the top frame and repCnt
its repeat counter. -/
def apply_token (g : TorchGrammar) (curr : Tok) (tok : Int) (repCnt : Nat) :
    List Frame → Option (List Frame)
  | [] => none
  | top :: rest =>
      match curr with
      | .rep sub rawPred => do
          let sr ← g.rawRules sub
          let first ← sr.head?
          let fe ← expand_literal first
          if tok ∉ fe then
            pop_and_advance g (top :: rest)
          else if wrap_pred rawPred repCnt then
            some ({ top with ptr := top.ptr + 1, rep := 0 } :: rest)
          else do
            let sid ← g.symbolToIndex sub
            if (top :: rest).length < max_d then
              some (⟨sid, 1, 0⟩ :: { top with rep := top.rep + 1 } :: rest)
            else none
      | .ref name => do
          let sid ← g.symbolToIndex name
          if (top :: rest).length < max_d then
            some (⟨sid, 0, 0⟩ :: top :: rest)
          else none
      | _ => some ({ top with ptr := top.ptr + 1, rep := 0 } :: rest)

/-- One iteration bound of the while-loop of _refresh_next for one slot;
the fuel is the stack depth, which strictly decreases at every iteration
that does not break out of the loop. -/
def refreshLoop (g : TorchGrammar) : Nat → List Frame → Option (List Frame × List Int)
  | _, [] => some ([], [])
  | 0, _ :: _ => none
  | fuel + 1, top :: rest => do
      let nm ← g.indexToSymbol top.obj
      let tokens ← g.rawRules nm
      if tokens.length ≤ top.ptr then do
        let st ← pop_and_advance g (top :: rest)
        refreshLoop g fuel st
      else do
        let curr ← tokens.get? top.ptr
        let valid ← compute_valid g curr top.rep tokens top.ptr
        if valid.isEmpty then
          refreshLoop g fuel rest
        else if valid.length ≤ max_n then
          some (top :: rest, valid)
        else none

/-- _refresh_next restricted to one slot: recompute the stack and cache. -/
def refreshSlot (g : TorchGrammar) (stack : List Frame) :
    Option (List Frame × List Int) :=
  refreshLoop g stack.length stack

/-- _refresh_next over all slots. -/
def refreshAll (g : TorchGrammar) : List Slot → Option (List Slot)
  | [] => some []
  | s :: ss => do
      let (st, c) ← refreshSlot g s.stack
      let rest ← refreshAll g ss
      some (⟨st, s.seq, c⟩ :: rest)

/-- The per-slot body of fast_is_valid: skip finished slots, test cache
membership, append to the buffer when below max_l, and advance the stack. -/
def stepSlot (g : TorchGrammar) (tok : Int) (s : Slot) : Option (Slot × Bool) :=
  match s.stack with
  | [] => some (s, false)
  | top :: rest =>
      if tok ∈ s.cache then
        let seqNew := if s.seq.length < max_l then s.seq ++ [tok] else s.seq
        (do
          let nm ← g.indexToSymbol top.obj
          let rules ← g.rawRules nm
          let curr ← rules.get? top.ptr
          let st ← apply_token g curr tok top.rep (top :: rest)
          some ({ s with stack := st, seq := seqNew }, true))
      else some (s, false)

/-- The slot loop of fast_is_valid: one token per slot (tokens beyond the
batch size are ignored, a missing token is an index error). -/
def stepAll (g : TorchGrammar) : List Slot → List Int → Option (List (Slot × Bool))
  | [], _ => some []
  | _ :: _, [] => none
  | s :: ss, t :: ts => do
      let r ← stepSlot g t s
      let rs ← stepAll g ss ts
      some (r :: rs)

/-- TorchGrammarBatchParser.fast_is_valid: consume one token per slot,
return the updated slots and the validity mask. -/
def fast_is_valid (g : TorchGrammar) (tokens : List Int) (slots : List Slot) :
    Option (List Slot × List Bool) := do
  let rs ← stepAll g slots tokens
  let slots2 ← refreshAll g (rs.map Prod.fst)
  some (slots2, rs.map Prod.snd)

/-- The loop of set_batch: overwrite the stack of the i-th slot with the
single root frame for the i-th root name; the buffer is left untouched. -/
def setRoots (g : TorchGrammar) : List Slot → List String → Option (List Slot)
  | ss, [] => some ss
  | [], _ :: _ => none
  | s :: ss, n :: ns => do
      let idx ← g.symbolToIndex n
      let rest ← setRoots g ss ns
      some ({ s with stack := [⟨idx, 0, 0⟩] } :: rest)

/-- TorchGrammarBatchParser.set_batch: write root frames, then refresh. -/
def set_batch (g : TorchGrammar) (rootObjects : List String) (slots : List Slot) :
    Option (List Slot) := do
  let ss ← setRoots g slots rootObjects
  refreshAll g ss

/-- The freshly constructed parser state of batch size bs. -/
def initState (bs : Nat) : List Slot := List.replicate bs ⟨[], [], []⟩

/-- TorchGrammarBatchParser.get_sequences. -/
def get_sequences (slots : List Slot) : List (List Int) := slots.map Slot.seq

/-- Iterated fast_is_valid over a list of per-step token vectors. -/
def runSteps (g : TorchGrammar) : List (List Int) → List Slot →
    Option (List Slot × List (List Bool))
  | [], slots => some (slots, [])
  | ts :: tss, slots => do
      let (s1, m) ← fast_is_valid g ts slots
      let (s2, ms) ← runSteps g tss s1
      some (s2, m :: ms)

/-- The parser states reachable through the public interface: the fresh
state of the constructor, closed under successful set_batch and
fast_is_valid calls. -/
inductive Reachable (g : TorchGrammar) : List Slot → Prop where
  | base (bs : Nat) : Reachable g (initState bs)
  | set (names : List String) (p p' : List Slot) :
      Reachable g p → set_batch g names p = some p' → Reachable g p'
  | step (toks : List Int) (p : List Slot) (pr : List Slot × List Bool) :
      Reachable g p → fast_is_valid g toks p = some pr → Reachable g pr.1

/-- The repetition bound of the sanity-check grammar (lambda x: x >= 2). -/
def zPred : RawPred := .fn fun x => decide (2 ≤ x)

def zProd : List Tok := [.lit 16, .lit 17]
def yProd : List Tok := [.lit 12, .lit 13, .rep "Z" zPred, .lit 15]
def xProd : List Tok := [.lit 1, .lit 2, .tup [3, 5], .lit 6]

/-- The grammar of the source's own sanity check: Z → [16, 17],
Y → [12, 13, repeat(Z, count ≥ 2), 15], X → [1, 2, range(3, 5), 6]. -/
def c1g : TorchGrammar :=
  ((gEmpty.addObject "Z" zProd).addObject "Y" yProd).addObject "X" xProd

/-! Helper lemmas about the lookup tables and the refresh loop. -/

lemma symbolToIndexAux_spec :
    ∀ (rs : List (String × List Tok)) (n : String) (i : Nat),
      symbolToIndexAux rs n = some i →
      ∃ ts, rs.get? i = some (n, ts) ∧ rawRulesAux rs n = some ts := by
  intro rs
  induction rs with
  | nil => intro n i h; simp [symbolToIndexAux] at h
  | cons p ps ih =>
      intro n i h
      by_cases hp : p.1 = n
      · rw [symbolToIndexAux, if_pos hp] at h
        obtain rfl : (0 : Nat) = i := by injection h
        obtain ⟨p1, p2⟩ := p
        subst hp
        exact ⟨p2, rfl, by rw [rawRulesAux, if_pos rfl]⟩
      · rw [symbolToIndexAux, if_neg hp] at h
        rw [Option.map_eq_some'] at h
        obtain ⟨j, hj, rfl⟩ := h
        obtain ⟨ts, h1, h2⟩ := ih n j hj
        exact ⟨ts, h1, by rw [rawRulesAux, if_neg hp]; exact h2⟩

lemma symbolToIndex_spec (g : TorchGrammar) (n : String) (i : Nat)
    (h : g.symbolToIndex n = some i) :
    g.indexToSymbol i = some n ∧ g.rawRules n = some ((g.rules.get? i).getD ("", [])).2 := by
  obtain ⟨ts, h1, h2⟩ := symbolToIndexAux_spec g.rules n i h
  refine ⟨?_, ?_⟩
  · unfold TorchGrammar.indexToSymbol
    rw [h1]
    rfl
  · unfold TorchGrammar.rawRules
    rw [h2, h1]
    rfl

lemma refreshLoop_fix (g : TorchGrammar) :
    ∀ (fuel : Nat) (st st2 : List Frame) (c : List Int),
      refreshLoop g fuel st = some (st2, c) →
      refreshLoop g st2.length st2 = some (st2, c) := by
  intro fuel
  induction fuel with
  | zero =>
      intro st st2 c h
      cases st with
      | nil =>
          simp only [refreshLoop, Option.some.injEq, Prod.mk.injEq] at h
          obtain ⟨rfl, rfl⟩ := h
          rfl
      | cons f fs => simp [refreshLoop] at h
  | succ fuel ih =>
      intro st st2 c h
      cases st with
      | nil =>
          simp only [refreshLoop, Option.some.injEq, Prod.mk.injEq] at h
          obtain ⟨rfl, rfl⟩ := h
          rfl
      | cons f fs =>
          simp only [refreshLoop, Option.bind_eq_bind, Option.bind_eq_some] at h
          obtain ⟨nm, hnm, h⟩ := h
          obtain ⟨tokens, htk, h⟩ := h
          by_cases hlen : tokens.length ≤ f.ptr
          · rw [if_pos hlen] at h
            simp only [Option.bind_eq_bind, Option.bind_eq_some] at h
            obtain ⟨st3, hpop, h⟩ := h
            exact ih st3 st2 c h
          · rw [if_neg hlen] at h
            simp only [Option.bind_eq_bind, Option.bind_eq_some] at h
            obtain ⟨curr, hcur, h⟩ := h
            obtain ⟨valid, hval, h⟩ := h
            by_cases hemp : valid.isEmpty
            · rw [if_pos hemp] at h
              exact ih fs st2 c h
            · rw [if_neg hemp] at h
              by_cases hmax : valid.length ≤ max_n
              · rw [if_pos hmax] at h
                simp only [Option.some.injEq, Prod.mk.injEq] at h
                obtain ⟨rfl, rfl⟩ := h
                simp only [List.length_cons, refreshLoop, Option.bind_eq_bind,
                  Option.some_bind, hnm, htk, hcur, hval, if_neg hlen, if_neg hemp,
                  if_pos hmax]
              · rw [if_neg hmax] at h
                exact absurd h (by simp)

lemma refreshSlot_fix (g : TorchGrammar) (st st2 : List Frame) (c : List Int)
    (h : refreshSlot g st = some (st2, c)) :
    refreshSlot g st2 = some (st2, c) :=
  refreshLoop_fix g st.length st st2 c h

lemma refreshAll_get (g : TorchGrammar) :
    ∀ (ss ss2 : List Slot), refreshAll g ss = some ss2 →
      ∀ (i : Nat) (s : Slot), ss.get? i = some s →
        ∃ st c, refreshSlot g s.stack = some (st, c) ∧
          ss2.get? i = some ⟨st, s.seq, c⟩ := by
  intro ss
  induction ss with
  | nil => intro ss2 h i s hs; simp at hs
  | cons s0 ss ih =>
      intro ss2 h i s hs
      simp only [refreshAll, Option.bind_eq_bind, Option.bind_eq_some] at h
      obtain ⟨⟨st, c⟩, hrs, h⟩ := h
      obtain ⟨rest, hrest, h⟩ := h
      simp only [Option.some.injEq] at h
      subst h
      cases i with
      | zero =>
          simp only [List.get?] at hs
          obtain rfl : s0 = s := by injection hs
          exact ⟨st, c, hrs, rfl⟩
      | succ i => exact ih rest hrest i s hs

lemma refreshAll_fix (g : TorchGrammar) :
    ∀ (ss ss2 : List Slot), refreshAll g ss = some ss2 →
      ∀ (i : Nat) (s2 : Slot), ss2.get? i = some s2 →
        refreshSlot g s2.stack = some (s2.stack, s2.cache) := by
  intro ss
  induction ss with
  | nil =>
      intro ss2 h i s2 hs
      simp only [refreshAll, Option.some.injEq] at h
      subst h
      simp at hs
  | cons s0 ss ih =>
      intro ss2 h i s2 hs
      simp only [refreshAll, Option.bind_eq_bind, Option.bind_eq_some] at h
      obtain ⟨⟨st, c⟩, hrs, h⟩ := h
      obtain ⟨rest, hrest, h⟩ := h
      simp only [Option.some.injEq] at h
      subst h
      cases i with
      | zero =>
          simp only [List.get?] at hs
          obtain rfl : (⟨st, s0.seq, c⟩ : Slot) = s2 := by injection hs
          exact refreshSlot_fix g s0.stack st c hrs
      | succ i => exact ih rest hrest i s2 hs

/-- Every slot of a parser state is a fixpoint of the cache refresh. -/
def Refreshed (g : TorchGrammar) (slots : List Slot) : Prop :=
  ∀ i s, slots.get? i = some s → refreshSlot g s.stack = some (s.stack, s.cache)

lemma initState_get :
    ∀ (bs i : Nat) (s : Slot), (initState bs).get? i = some s → s = ⟨[], [], []⟩ := by
  intro bs
  induction bs with
  | zero => intro i s h; simp [initState] at h
  | succ bs ih =>
      intro i s h
      cases i with
      | zero =>
          simp only [initState, List.replicate, List.get?] at h
          injection h with h
          exact h.symm
      | succ i =>
          simp only [initState, List.replicate, List.get?] at h
          exact ih i s h

lemma reachable_refreshed {g : TorchGrammar} {p : List Slot} (h : Reachable g p) :
    Refreshed g p := by
  induction h with
  | base bs =>
      intro i s hs
      rw [initState_get bs i s hs]
      rfl
  | set names p p' hr hsb ih =>
      intro i s hs
      unfold set_batch at hsb
      simp only [Option.bind_eq_bind, Option.bind_eq_some] at hsb
      obtain ⟨ss1, hroots, href⟩ := hsb
      exact refreshAll_fix g ss1 p' href i s hs
  | step toks p pr hr hfv ih =>
      intro i s hs
      unfold fast_is_valid at hfv
      simp only [Option.bind_eq_bind, Option.bind_eq_some] at hfv
      obtain ⟨rs, hsteps, hfv⟩ := hfv
      obtain ⟨slots2, href, hfv⟩ := hfv
      simp only [Option.some.injEq] at hfv
      subst hfv
      exact refreshAll_fix g (rs.map Prod.fst) slots2 href i s hs

lemma stepAll_get (g : TorchGrammar) :
    ∀ (ss : List Slot) (ts : List Int) (rs : List (Slot × Bool)),
      stepAll g ss ts = some rs →
      ∀ (i : Nat) (s : Slot), ss.get? i = some s →
        ∃ t r, ts.get? i = some t ∧ rs.get? i = some r ∧ stepSlot g t s = some r := by
  intro ss
  induction ss with
  | nil => intro ts rs h i s hs; simp at hs
  | cons s0 ss ih =>
      intro ts rs h i s hs
      cases ts with
      | nil => simp [stepAll] at h
      | cons t0 ts =>
          simp only [stepAll, Option.bind_eq_bind, Option.bind_eq_some] at h
          obtain ⟨r0, hr0, h⟩ := h
          obtain ⟨rest, hrest, h⟩ := h
          simp only [Option.some.injEq] at h
          subst h
          cases i with
          | zero =>
              simp only [List.get?] at hs
              obtain rfl : s0 = s := by injection hs
              exact ⟨t0, r0, rfl, rfl, hr0⟩
          | succ i => exact ih ts rest hrest i s hs

lemma setRoots_get (g : TorchGrammar) :
    ∀ (ss : List Slot) (ns : List String) (ss1 : List Slot),
      setRoots g ss ns = some ss1 → ns.length = ss.length →
      ∀ (i : Nat) (s : Slot), ss.get? i = some s →
        ∃ nm idx, ns.get? i = some nm ∧ g.symbolToIndex nm = some idx ∧
          ss1.get? i = some ⟨[⟨idx, 0, 0⟩], s.seq, s.cache⟩ := by
  intro ss
  induction ss with
  | nil => intro ns ss1 h hl i s hs; simp at hs
  | cons s0 ss ih =>
      intro ns ss1 h hl i s hs
      cases ns with
      | nil => simp at hl
      | cons n0 ns =>
          simp only [setRoots, Option.bind_eq_bind, Option.bind_eq_some] at h
          obtain ⟨idx, hidx, h⟩ := h
          obtain ⟨rest, hrest, h⟩ := h
          simp only [Option.some.injEq] at h
          subst h
          simp only [List.length_cons, Nat.add_right_cancel_iff] at hl
          cases i with
          | zero =>
              simp only [List.get?] at hs
              obtain rfl : s0 = s := by injection hs
              exact ⟨n0, idx, rfl, hidx, rfl⟩
          | succ i => exact ih ns rest hrest hl i s hs

lemma stepSlot_reject (g : TorchGrammar) (tok : Int) (s : Slot)
    (hnot : tok ∉ s.cache) : stepSlot g tok s = some (s, false) := by
  obtain ⟨stk, sq, ch⟩ := s
  cases stk with
  | nil => rfl
  | cons top rest =>
      simp only [stepSlot]
      rw [if_neg hnot]

lemma stepSlot_terminal (g : TorchGrammar) (tok : Int) (s : Slot)
    (hterm : s.stack = []) : stepSlot g tok s = some (s, false) := by
  obtain ⟨stk, sq, ch⟩ := s
  simp only at hterm
  subst hterm
  rfl

lemma terminal_cache_empty {g : TorchGrammar} {p : List Slot} {i : Nat} {s : Slot}
    (hr : Reachable g p) (hs : p.get? i = some s) (hterm : s.stack = []) :
    s.cache = [] := by
  have h := reachable_refreshed hr i s hs
  rw [hterm] at h
  have h2 : refreshSlot g ([] : List Frame) = some ([], []) := rfl
  rw [h2] at h
  injection h with h
  exact (congrArg Prod.snd h).symm

lemma terminal_step {g : TorchGrammar} {p p2 : List Slot} {toks : List Int}
    {mask : List Bool} {i : Nat} {s : Slot}
    (hr : Reachable g p) (hs : p.get? i = some s) (hterm : s.stack = [])
    (hcall : fast_is_valid g toks p = some (p2, mask)) :
    mask.get? i = some false ∧ p2.get? i = some s := by
  have hcache : s.cache = [] := terminal_cache_empty hr hs hterm
  unfold fast_is_valid at hcall
  simp only [Option.bind_eq_bind, Option.bind_eq_some] at hcall
  obtain ⟨rs, hsteps, hcall⟩ := hcall
  obtain ⟨slots2, href, hcall⟩ := hcall
  simp only [Option.some.injEq, Prod.mk.injEq] at hcall
  obtain ⟨rfl, rfl⟩ := hcall
  obtain ⟨t, r, ht2, hrget, hstep⟩ := stepAll_get g p toks rs hsteps i s hs
  rw [stepSlot_terminal g t s hterm] at hstep
  obtain rfl : (s, false) = r := by injection hstep
  constructor
  · rw [List.get?_map, hrget]
    rfl
  · have hin : (rs.map Prod.fst).get? i = some s := by
      rw [List.get?_map, hrget]
      rfl
    obtain ⟨st, c, href1, href2⟩ := refreshAll_get g (rs.map Prod.fst) slots2 href i s hin
    rw [hterm] at href1
    have h2 : refreshSlot g ([] : List Frame) = some ([], []) := rfl
    rw [h2] at href1
    injection href1 with href1
    obtain ⟨rfl, rfl⟩ : st = [] ∧ c = [] := by
      exact ⟨(congrArg Prod.fst href1).symm, (congrArg Prod.snd href1).symm⟩
    rw [href2, ← hterm, ← hcache]

/-! Claim theorems. -/

/-- C6: for every reachable parser state and every token not contained in a
slot's legal-next cache, fast_is_valid reports false for that slot and leaves
the slot's parse stack, depth pointer, accepted-token buffer, buffer length
and legal-next cache exactly unchanged, including after the cache
recomputation performed at the end of the call. -/
theorem c6_rejection_purity (g : TorchGrammar) (p : List Slot) (toks : List Int)
    (i : Nat) (s : Slot) (tok : Int) (p2 : List Slot) (mask : List Bool)
    (hr : Reachable g p) (hs : p.get? i = some s) (ht : toks.get? i = some tok)
    (hnot : tok ∉ s.cache) (hcall : fast_is_valid g toks p = some (p2, mask)) :
    mask.get? i = some false ∧ p2.get? i = some s := by
  unfold fast_is_valid at hcall
  simp only [Option.bind_eq_bind, Option.bind_eq_some] at hcall
  obtain ⟨rs, hsteps, hcall⟩ := hcall
  obtain ⟨slots2, href, hcall⟩ := hcall
  simp only [Option.some.injEq, Prod.mk.injEq] at hcall
  obtain ⟨rfl, rfl⟩ := hcall
  obtain ⟨t, r, ht2, hrget, hstep⟩ := stepAll_get g p toks rs hsteps i s hs
  rw [ht] at ht2
  have htt : t = tok := by
    injection ht2 with h2
    exact h2.symm
  rw [htt] at hstep
  rw [stepSlot_reject g tok s hnot] at hstep
  obtain rfl : (s, false) = r := by injection hstep
  constructor
  · rw [List.get?_map, hrget]
    rfl
  · have hin : (rs.map Prod.fst).get? i = some s := by
      rw [List.get?_map, hrget]
      rfl
    obtain ⟨st, c, href1, href2⟩ := refreshAll_get g (rs.map Prod.fst) slots2 href i s hin
    have hfix := reachable_refreshed hr i s hs
    rw [hfix] at href1
    injection href1 with href1
    obtain ⟨rfl, rfl⟩ : s.stack = st ∧ s.cache = c :=
      ⟨congrArg Prod.fst href1, congrArg Prod.snd href1⟩
    rw [href2]

/-- C7: a slot that has reached the terminal state (empty stack, depth
pointer 0) in a reachable parser state has an empty legal-next cache, and
under any further sequence of fast_is_valid calls it stays byte-for-byte
unchanged and every returned mask entry for it is false: the terminal state
is absorbing. -/
theorem c7_terminal_absorbing (g : TorchGrammar) (p : List Slot) (i : Nat)
    (s : Slot) (tss : List (List Int)) (p2 : List Slot) (ms : List (List Bool))
    (hr : Reachable g p) (hs : p.get? i = some s) (hterm : s.stack = [])
    (hrun : runSteps g tss p = some (p2, ms)) :
    s.cache = [] ∧ p2.get? i = some s ∧ ∀ m ∈ ms, m.get? i = some false := by
  refine ⟨terminal_cache_empty hr hs hterm, ?_⟩
  induction tss generalizing p p2 ms with
  | nil =>
      simp only [runSteps, Option.some.injEq, Prod.mk.injEq] at hrun
      obtain ⟨rfl, rfl⟩ := hrun
      exact ⟨hs, by simp⟩
  | cons ts tss ih =>
      simp only [runSteps, Option.bind_eq_bind, Option.bind_eq_some] at hrun
      obtain ⟨⟨s1, m⟩, hfv, hrun⟩ := hrun
      obtain ⟨⟨s2, ms2⟩, hrun2, hrun⟩ := hrun
      simp only [Option.some.injEq, Prod.mk.injEq] at hrun
      obtain ⟨rfl, rfl⟩ := hrun
      obtain ⟨hm, hs1⟩ := terminal_step hr hs hterm hfv
      have hr1 : Reachable g s1 := Reachable.step ts p (s1, m) hr hfv
      obtain ⟨hp2, hms⟩ := ih s1 s2 ms2 hr1 hs1 hrun2
      refine ⟨hp2, ?_⟩
      intro m2 hm2
      cases hm2 with
      | head => exact hm
      | tail b h => exact hms m2 h

lemma stepSlot_accept (g : TorchGrammar) (tok : Int) (s : Slot) (top : Frame)
    (rest : List Frame) (nm : String) (rules : List Tok) (curr : Tok)
    (st2 : List Frame)
    (hstack : s.stack = top :: rest)
    (hmem : tok ∈ s.cache)
    (hnm : g.indexToSymbol top.obj = some nm)
    (hrules : g.rawRules nm = some rules)
    (hcurr : rules.get? top.ptr = some curr)
    (happ : apply_token g curr tok top.rep (top :: rest) = some st2) :
    stepSlot g tok s =
      some ({ s with
                stack := st2,
                seq := if s.seq.length < max_l then s.seq ++ [tok] else s.seq },
            true) := by
  obtain ⟨stk, sq, ch⟩ := s
  simp only at hstack
  subst hstack
  simp only [stepSlot, Option.bind_eq_bind]
  rw [if_pos hmem]
  simp only [hnm, hrules, hcurr, happ, Option.some_bind]

/-- C3 (amended): set_batch resets every slot's parse stack to the single
root frame of its root name, with the depth pointer 1, and recomputes the
legal-next cache from that frame alone — independently of all prior stack
and cache contents — but it does not clear the accepted-token buffer: the
buffer and its length are carried over, so previously accepted tokens are
still returned by get_sequences. -/
theorem c3_set_batch (g : TorchGrammar) (names : List String) (p p2 : List Slot)
    (h : set_batch g names p = some p2) (hl : names.length = p.length) :
    ∀ (i : Nat) (s : Slot), p.get? i = some s →
      ∃ nm idx st c, names.get? i = some nm ∧ g.symbolToIndex nm = some idx ∧
        refreshSlot g [⟨idx, 0, 0⟩] = some (st, c) ∧
        p2.get? i = some ⟨st, s.seq, c⟩ := by
  intro i s hs
  unfold set_batch at h
  simp only [Option.bind_eq_bind, Option.bind_eq_some] at h
  obtain ⟨ss1, hroots, href⟩ := h
  obtain ⟨nm, idx, h1, h2, h3⟩ := setRoots_get g p names ss1 hroots hl i s hs
  obtain ⟨st, c, h4, h5⟩ := refreshAll_get g ss1 p2 href i _ h3
  exact ⟨nm, idx, st, c, h1, h2, h4, h5⟩

/-- C4 (amended): when the current token of the top frame is a repeat group
whose sub-object first expansion contains the accepted token and whose
predicate is not yet satisfied, fast_is_valid pushes a new frame for the
sub-object with token pointer 1 — the accepted token has already consumed
the sub-object's first token — and repeat count 0, and increments the
parent frame's repeat counter by one. -/
theorem c4_repeat_entry (g : TorchGrammar) (s : Slot) (tok : Int) (top : Frame)
    (rest : List Frame) (nm sub : String) (rules sr : List Tok) (rp : RawPred)
    (f : Tok) (fe : List Int) (sid : Nat)
    (hstack : s.stack = top :: rest)
    (hmem : tok ∈ s.cache)
    (hnm : g.indexToSymbol top.obj = some nm)
    (hrules : g.rawRules nm = some rules)
    (hcurr : rules.get? top.ptr = some (.rep sub rp))
    (hsr : g.rawRules sub = some sr)
    (hf : sr.head? = some f)
    (hfe : expand_literal f = some fe)
    (hin : tok ∈ fe)
    (hpred : wrap_pred rp top.rep = false)
    (hsid : g.symbolToIndex sub = some sid)
    (hdepth : (top :: rest).length < max_d) :
    stepSlot g tok s =
      some ({ s with
                stack := ⟨sid, 1, 0⟩ :: { top with rep := top.rep + 1 } :: rest,
                seq := if s.seq.length < max_l then s.seq ++ [tok] else s.seq },
            true) := by
  have happ : apply_token g (.rep sub rp) tok top.rep (top :: rest) =
      some (⟨sid, 1, 0⟩ :: { top with rep := top.rep + 1 } :: rest) := by
    simp only [apply_token, Option.bind_eq_bind, hsr, hf, hfe, Option.some_bind]
    rw [if_neg (not_not_intro hin)]
    rw [if_neg (by simp [hpred])]
    simp only [hsid, Option.some_bind]
    rw [if_pos hdepth]
  exact stepSlot_accept g tok s top rest nm rules (.rep sub rp) _ hstack hmem hnm
    hrules hcurr happ

/-- C5 (amended): when the current token of the top frame is a repeat group
and the accepted token does not belong to the sub-object's first literal
expansion (the repeat path) — in particular when it belongs to the exit-path
expansion only — fast_is_valid pops the current frame via pop_and_advance,
which advances the parent's pointer past the reference that produced the
frame unless the parent's current token is a repeat group whose predicate is
unsatisfied. A token that does belong to the repeat-path expansion never
takes this branch, even if it also belongs to the exit-path expansion. -/
theorem c5_exit_pop (g : TorchGrammar) (s : Slot) (tok : Int) (top : Frame)
    (rest : List Frame) (nm sub : String) (rules sr : List Tok) (rp : RawPred)
    (f : Tok) (fe : List Int) (st2 : List Frame)
    (hstack : s.stack = top :: rest)
    (hmem : tok ∈ s.cache)
    (hnm : g.indexToSymbol top.obj = some nm)
    (hrules : g.rawRules nm = some rules)
    (hcurr : rules.get? top.ptr = some (.rep sub rp))
    (hsr : g.rawRules sub = some sr)
    (hf : sr.head? = some f)
    (hfe : expand_literal f = some fe)
    (hnotin : tok ∉ fe)
    (hpop : pop_and_advance g (top :: rest) = some st2) :
    stepSlot g tok s =
      some ({ s with
                stack := st2,
                seq := if s.seq.length < max_l then s.seq ++ [tok] else s.seq },
            true) := by
  have happ : apply_token g (.rep sub rp) tok top.rep (top :: rest) = some st2 := by
    simp only [apply_token, Option.bind_eq_bind, hsr, hf, hfe, Option.some_bind]
    rw [if_pos hnotin]
    exact hpop
  exact stepSlot_accept g tok s top rest nm rules (.rep sub rp) _ hstack hmem hnm
    hrules hcurr happ

/-- C10: when the current token of the top frame is an object reference and
the accepted token belongs to the referenced object's first token's
expansion, fast_is_valid pushes a frame for the referenced object with
pointer 0 and repeat 0, and the recomputed legal-next cache is again exactly
that first token's expansion, so the referenced object's first token has to
be accepted a second time before parsing progresses past it. -/
theorem c10_ref_double_accept (g : TorchGrammar) (s : Slot) (tok : Int)
    (top : Frame) (rest : List Frame) (nm name : String) (rules nr : List Tok)
    (f : Tok) (fe : List Int) (sid : Nat)
    (hstack : s.stack = top :: rest)
    (hmem : tok ∈ s.cache)
    (hnm : g.indexToSymbol top.obj = some nm)
    (hrules : g.rawRules nm = some rules)
    (hcurr : rules.get? top.ptr = some (.ref name))
    (hsid : g.symbolToIndex name = some sid)
    (hnr : g.rawRules name = some nr)
    (hf : nr.head? = some f)
    (hfe : expand_literal f = some fe)
    (hdepth : (top :: rest).length < max_d)
    (hne : fe ≠ [])
    (hmax : fe.length ≤ max_n) :
    stepSlot g tok s =
      some ({ s with
                stack := ⟨sid, 0, 0⟩ :: top :: rest,
                seq := if s.seq.length < max_l then s.seq ++ [tok] else s.seq },
            true) ∧
    refreshSlot g (⟨sid, 0, 0⟩ :: top :: rest) =
      some (⟨sid, 0, 0⟩ :: top :: rest, fe) := by
  constructor
  · have happ : apply_token g (.ref name) tok top.rep (top :: rest) =
        some (⟨sid, 0, 0⟩ :: top :: rest) := by
      simp only [apply_token, Option.bind_eq_bind, hsid, Option.some_bind]
      rw [if_pos hdepth]
    exact stepSlot_accept g tok s top rest nm rules (.ref name) _ hstack hmem hnm
      hrules hcurr happ
  · have hname : g.indexToSymbol sid = some name := (symbolToIndex_spec g name sid hsid).1
    have hemp : fe.isEmpty = false := by
      cases fe with
      | nil => exact absurd rfl hne
      | cons a l => rfl
    cases nr with
    | nil => simp at hf
    | cons f0 nrest =>
        have hff : f0 = f := by injection hf
        subst hff
        have hval : compute_valid g f0 (0 : Nat) (f0 :: nrest) (0 : Nat) = some fe := by
          cases f0 with
          | lit id => simpa [compute_valid] using hfe
          | tup ids => simpa [compute_valid] using hfe
          | ref n2 => simp [expand_literal] at hfe
          | rep s2 r2 => simp [expand_literal] at hfe
        show refreshLoop g (⟨sid, 0, 0⟩ :: top :: rest).length
            (⟨sid, 0, 0⟩ :: top :: rest) = some (⟨sid, 0, 0⟩ :: top :: rest, fe)
        simp only [List.length_cons, refreshLoop, Option.bind_eq_bind, hname, hnr,
          Option.some_bind]
        rw [if_neg (by simp)]
        simp only [List.get?, Option.some_bind, hval]
        rw [if_neg (by simp [hemp]), if_pos hmax]

/-! Concrete runs used by the counterexamples, the code-bug evaluation and
the witnesses. -/

/-- The three-slot batch of the concrete scenario, roots Y, X, Y. -/
def c1Start : List Slot := (set_batch c1g ["Y", "X", "Y"] (initState 3)).getD []

def c1s3 : List Slot :=
  ((runSteps c1g [[12, 1, 12], [13, 2, 13], [16, 3, 16]] c1Start).getD ([], [])).1

def c1s4 : List Slot := ((fast_is_valid c1g [17, 5, 17] c1s3).getD ([], [])).1

/-- C1 (counterexample): with the scenario grammar and roots Y, X, Y, the
first three feeds are accepted everywhere, but the code computes the slot-0
legal set after the third feed as exactly repeat 17 — not 16 and 17 — and the
fourth feed 17, 5, 17 yields the mask true, false, true rather than all
three accepted, so the claim is false on the code. -/
theorem c1_counterexample :
    (runSteps c1g [[12, 1, 12], [13, 2, 13], [16, 3, 16]] c1Start).map Prod.snd =
      some [[true, true, true], [true, true, true], [true, true, true]] ∧
    (c1s3.get? 0).map Slot.cache = some [17] ∧
    ([17] : List Int) ≠ [16, 17] ∧
    (fast_is_valid c1g [17, 5, 17] c1s3).map Prod.snd = some [true, false, true] ∧
    ([true, false, true] : List Bool) ≠ [true, true, true] := by decide

/-- C1 (amended): feeding 12, 1, 12 then 13, 2, 13 then 16, 3, 16 reports
all three slots accepted; at that point slot 0's legal set is exactly 17
(the parser is inside Z at its second token). Feeding 17, 5, 17 yields
true, false, true — slot 1 rejects 5 because after the range token consumed
a single token only 6 is legal. Slot 0's legal set is then exactly 15 and 16
(the repeat count is 1, below 2, so both the exit and the repeat paths are
open), and feeding 16 to slot 0 next returns true. -/
theorem c1_amended :
    (runSteps c1g [[12, 1, 12], [13, 2, 13], [16, 3, 16]] c1Start).map Prod.snd =
      some [[true, true, true], [true, true, true], [true, true, true]] ∧
    (c1s3.get? 0).map Slot.cache = some [17] ∧
    (fast_is_valid c1g [17, 5, 17] c1s3).map Prod.snd = some [true, false, true] ∧
    (c1s4.get? 0).map Slot.cache = some [15, 16] ∧
    (fast_is_valid c1g [16, 99, 99] c1s4).map (fun r => r.2.get? 0) =
      some (some true) := by decide

/-- Grammar driving a slot past the sequence-length bound: Y repeats Z up
to 200 times, so far more than max_l tokens are legal in sequence. -/
def c2g : TorchGrammar :=
  (gEmpty.addObject "Z" zProd).addObject "Y"
    [.lit 12, .lit 13, .rep "Z" (.num 200), .lit 15]

def c2Feeds : List (List Int) :=
  [[12], [13]] ++ (List.replicate 63 [([16] : List Int), [17]]).join

def c2Start : List Slot := (set_batch c2g ["Y"] (initState 1)).getD []

def c2Full : List Slot := ((runSteps c2g c2Feeds c2Start).getD ([], [])).1

set_option maxRecDepth 100000 in
/-- C2 (code bug): after 128 accepted tokens the slot's buffer is full
(length max_l) and 16 is still in its legal cache, yet fast_is_valid still
returns true for the slot while silently not recording the token — the
buffer stays at length max_l. The claim requires false here. -/
theorem c2_truncation_accepts :
    (c2Full.get? 0).map (fun s => s.seq.length) = some max_l ∧
    (c2Full.get? 0).map Slot.cache = some [15, 16] ∧
    (fast_is_valid c2g [16] c2Full).map
        (fun r => (r.2, r.1.map (fun s => s.seq.length))) =
      some ([true], [max_l]) := by decide

def c3s0 : List Slot := (set_batch c1g ["Y"] (initState 1)).getD []

def c3s1 : List Slot := ((fast_is_valid c1g [12] c3s0).getD ([], [])).1

def c3s2 : List Slot := (set_batch c1g ["Y"] c3s1).getD []

/-- C3 (counterexample): accept token 12, then re-initialize the batch with
set_batch; get_sequences still returns the previously accepted token 12, not
the empty list, so prior state is not fully discarded. -/
theorem c3_counterexample :
    get_sequences c3s2 = [[12]] ∧ ([[12]] : List (List Int)) ≠ [[]] := by decide

def c4s : List Slot :=
  ((runSteps c1g [[12], [13], [16]] c3s0).getD ([], [])).1

/-- C4 (counterexample): in the scenario grammar, after accepting 12 and 13
the current token of root Y is the repeat group on Z; accepting 16 pushes
the new Z frame with token pointer 1 — not 0 as the claim states — while the
parent frame's repeat counter becomes 1. -/
theorem c4_counterexample :
    (c4s.get? 0).map Slot.stack = some [⟨0, 1, 0⟩, ⟨1, 2, 1⟩] ∧
    (⟨0, 1, 0⟩ : Frame) ≠ ⟨0, 0, 0⟩ := by decide

/-- Grammar whose exit-path and repeat-path expansions overlap:
Z → [16, 17], W → [12, repeat(Z, count ≥ 2), 16]. -/
def c5g : TorchGrammar :=
  (gEmpty.addObject "Z" zProd).addObject "W"
    [.lit 12, .rep "Z" (.num 2), .lit 16]

def c5mid : List Slot :=
  ((fast_is_valid c5g [12] ((set_batch c5g ["W"] (initState 1)).getD [])).getD
    ([], [])).1

def c5s : List Slot := ((fast_is_valid c5g [16] c5mid).getD ([], [])).1

/-- C5 (counterexample): after accepting 12 in W, token 16 belongs to both
the exit-path expansion (the literal 16 after the group) and the repeat-path
expansion (Z's first token); the cache lists it twice. Accepting 16 does not
pop — it pushes a new Z frame, making the stack deeper, whereas popping the
current object would have emptied the stack. -/
theorem c5_counterexample :
    (c5mid.get? 0).map Slot.cache = some [16, 16] ∧
    (c5s.get? 0).map Slot.stack = some [⟨0, 1, 0⟩, ⟨1, 1, 1⟩] ∧
    pop_and_advance c5g [⟨1, 1, 0⟩] = some [] ∧
    ([⟨0, 1, 0⟩, ⟨1, 1, 1⟩] : List Frame) ≠ [] := by decide

/-- C8: a 2-tuple range spec with lo ≤ hi expands to exactly the integers
lo..hi inclusive, in strictly ascending order, with length hi - lo + 1; an
enumeration spec (tuple of length greater than 2) expands to exactly the
given IDs in the given order. -/
theorem c8_expand_literal (lo hi : Int) (ids : List Int)
    (h : lo ≤ hi) (h2 : 2 < ids.length) :
    (expand_literal (.tup [lo, hi]) = some (rangeIncl lo hi) ∧
      ((rangeIncl lo hi).length : Int) = hi - lo + 1 ∧
      (∀ x : Int, x ∈ rangeIncl lo hi ↔ lo ≤ x ∧ x ≤ hi) ∧
      List.Sorted (· < ·) (rangeIncl lo hi)) ∧
    expand_literal (.tup ids) = some ids := by
  constructor
  · refine ⟨rfl, ?_, ?_, ?_⟩
    · rw [rangeIncl, List.length_map, List.length_range]
      omega
    · intro x
      simp only [rangeIncl, List.mem_map, List.mem_range, Int.ofNat_eq_natCast]
      constructor
      · rintro ⟨k, hk, rfl⟩
        omega
      · rintro ⟨h1, h2⟩
        exact ⟨(x - lo).toNat, by omega, by omega⟩
    · unfold rangeIncl
      rw [List.Sorted, List.pairwise_map]
      refine (List.sorted_lt_range _).imp ?_
      intro a b hab
      simp only [Int.ofNat_eq_natCast]
      omega
  · rcases ids with _ | ⟨a, _ | ⟨b, _ | ⟨c, rest⟩⟩⟩
    · simp at h2
    · simp at h2
    · simp at h2
    · rfl

/-- C8 witness at lo = 3, hi = 5 and the enumeration 7, 8, 9. -/
theorem c8_witness :
    expand_literal (Tok.tup [3, 5]) = some [3, 4, 5] ∧
    expand_literal (Tok.tup [7, 8, 9]) = some [7, 8, 9] := by
  have h := c8_expand_literal 3 5 [7, 8, 9] (by decide) (by decide)
  exact ⟨by decide, h.2⟩

/-- C9 (counterexample): a 1-tuple and a 0-tuple are neither a Literal, a
Range nor an Enumeration of length greater than 2, yet expand_literal
returns a result for them instead of failing. -/
theorem c9_counterexample :
    expand_literal (Tok.tup [5]) = some [5] ∧
    expand_literal (Tok.tup []) = some [] ∧
    (some [5] : Option (List Int)) ≠ none := by decide

/-- C9 (amended): expand_literal fails with a grammar-definition error
exactly for object-reference and repeat-group specs (the shapes that are
neither int nor tuple); every tuple — including tuples of length 0 or 1 —
returns a result: a 2-tuple expands as a range and any other tuple is
returned elementwise. -/
theorem c9_expand_failure (t : Tok) :
    expand_literal t = none ↔
      (∃ n, t = Tok.ref n) ∨ (∃ sub rp, t = Tok.rep sub rp) := by
  cases t with
  | lit id => simp [expand_literal]
  | tup ids =>
      rcases ids with _ | ⟨a, _ | ⟨b, rest⟩⟩
      · simp [expand_literal]
      · simp [expand_literal]
      · cases rest with
        | nil => simp [expand_literal]
        | cons c rest2 => simp [expand_literal]
  | ref n =>
      simp only [expand_literal, true_iff]
      exact Or.inl ⟨n, rfl⟩
  | rep sub rp =>
      simp only [expand_literal, true_iff]
      exact Or.inr ⟨sub, rp, rfl⟩

/-! Witnesses for the theorems with hypotheses. -/

/-- C3 witness: after accepting 12 with root Y, re-initializing with Y keeps
the buffer: the slot's sequence is still 12. -/
theorem c3_witness :
    set_batch c1g ["Y"] c3s1 = some c3s2 ∧
    (c3s2.get? 0).map Slot.seq = some [12] := by
  refine ⟨by decide, ?_⟩
  have h := c3_set_batch c1g ["Y"] c3s1 c3s2 (by decide) (by decide) 0
      ⟨[⟨1, 1, 0⟩], [12], [13]⟩ (by decide)
  obtain ⟨nm, idx, st, c, h1, h2, h3, h4⟩ := h
  rw [h4]
  rfl

/-- C4 witness: in the scenario grammar, accepting 16 on the repeat group of
Y pushes the Z frame with pointer 1 and bumps the parent repeat counter. -/
theorem c4_witness :
    stepSlot c1g 16 ⟨[⟨1, 2, 0⟩], [12, 13], [15, 16]⟩ =
      some (⟨[⟨0, 1, 0⟩, ⟨1, 2, 1⟩], [12, 13, 16], [15, 16]⟩, true) := by
  have h := c4_repeat_entry c1g ⟨[⟨1, 2, 0⟩], [12, 13], [15, 16]⟩ 16 ⟨1, 2, 0⟩ []
      "Y" "Z" yProd zProd zPred (.lit 16) [16] 0 rfl (by decide) rfl rfl rfl rfl
      rfl rfl (by decide) (by decide) (by decide) (by decide)
  exact h

/-- C5 witness: in the scenario grammar, accepting the exit token 15 (not in
Z's first expansion) pops the Y frame, reaching the root. -/
theorem c5_witness :
    stepSlot c1g 15 ⟨[⟨1, 2, 1⟩], [12, 13, 16, 17], [15, 16]⟩ =
      some (⟨[], [12, 13, 16, 17, 15], [15, 16]⟩, true) := by
  have h := c5_exit_pop c1g ⟨[⟨1, 2, 1⟩], [12, 13, 16, 17], [15, 16]⟩ 15 ⟨1, 2, 1⟩
      [] "Y" "Z" yProd zProd zPred (.lit 16) [16] [] rfl (by decide) rfl rfl rfl
      rfl rfl rfl (by decide) (by decide)
  exact h

def c6r : List Slot × List Bool := (fast_is_valid c1g [99] c3s0).getD ([], [])

/-- C6 witness: in the freshly initialized root-Y slot, token 99 is not in
the cache; the call reports false and leaves the slot unchanged. -/
theorem c6_witness :
    (99 : Int) ∉ (⟨[⟨1, 0, 0⟩], [], [12]⟩ : Slot).cache ∧
    c6r.2.get? 0 = some false ∧ c6r.1.get? 0 = some ⟨[⟨1, 0, 0⟩], [], [12]⟩ := by
  have hr : Reachable c1g c3s0 :=
    Reachable.set ["Y"] (initState 1) c3s0 (Reachable.base 1) (by decide)
  have h := c6_rejection_purity c1g c3s0 [99] 0 ⟨[⟨1, 0, 0⟩], [], [12]⟩ 99
      c6r.1 c6r.2 hr (by decide) (by decide) (by decide) (by decide)
  exact ⟨by decide, h.1, h.2⟩

def c7n (ts : List Int) (p : List Slot) : List Slot :=
  ((fast_is_valid c1g ts p).getD ([], [])).1

def c7p : List Slot :=
  c7n [15] (c7n [17] (c7n [16] (c7n [17] (c7n [16] (c7n [13] (c7n [12] c3s0))))))

def c7slot : Slot := ⟨[], [12, 13, 16, 17, 16, 17, 15], []⟩

def c7run : List Slot × List (List Bool) :=
  (runSteps c1g [[16], [12]] c7p).getD ([], [])

/-- C7 witness: after parsing a complete Y derivation the slot is terminal;
two further accept calls leave it unchanged with an empty cache. -/
theorem c7_witness :
    c7slot.cache = [] ∧ c7run.1.get? 0 = some c7slot := by
  have h0 : Reachable c1g c3s0 :=
    Reachable.set ["Y"] (initState 1) c3s0 (Reachable.base 1) (by decide)
  have h1 : Reachable c1g (c7n [12] c3s0) :=
    Reachable.step [12] c3s0 ((fast_is_valid c1g [12] c3s0).getD ([], [])) h0
      (by decide)
  have h2 : Reachable c1g (c7n [13] (c7n [12] c3s0)) :=
    Reachable.step [13] _ ((fast_is_valid c1g [13] (c7n [12] c3s0)).getD ([], []))
      h1 (by decide)
  have h3 : Reachable c1g (c7n [16] (c7n [13] (c7n [12] c3s0))) :=
    Reachable.step [16] _
      ((fast_is_valid c1g [16] (c7n [13] (c7n [12] c3s0))).getD ([], [])) h2
      (by decide)
  have h4 : Reachable c1g (c7n [17] (c7n [16] (c7n [13] (c7n [12] c3s0)))) :=
    Reachable.step [17] _
      ((fast_is_valid c1g [17] (c7n [16] (c7n [13] (c7n [12] c3s0)))).getD ([], []))
      h3 (by decide)
  have h5 : Reachable c1g
      (c7n [16] (c7n [17] (c7n [16] (c7n [13] (c7n [12] c3s0))))) :=
    Reachable.step [16] _
      ((fast_is_valid c1g [16]
        (c7n [17] (c7n [16] (c7n [13] (c7n [12] c3s0))))).getD ([], [])) h4
      (by decide)
  have h6 : Reachable c1g
      (c7n [17] (c7n [16] (c7n [17] (c7n [16] (c7n [13] (c7n [12] c3s0)))))) :=
    Reachable.step [17] _
      ((fast_is_valid c1g [17]
        (c7n [16] (c7n [17] (c7n [16] (c7n [13] (c7n [12] c3s0)))))).getD ([], []))
      h5 (by decide)
  have h7 : Reachable c1g c7p :=
    Reachable.step [15] _
      ((fast_is_valid c1g [15]
        (c7n [17] (c7n [16] (c7n [17] (c7n [16]
          (c7n [13] (c7n [12] c3s0))))))).getD ([], [])) h6 (by decide)
  have h := c7_terminal_absorbing c1g c7p 0 c7slot [[16], [12]] c7run.1 c7run.2
      h7 (by decide) (by decide) (by decide)
  exact ⟨h.1, h.2.1⟩

def aProd : List Tok := [.lit 1, .ref "Z", .lit 9]

/-- Grammar with an embedded object reference: Z → [16, 17],
A → [1, Z, 9]. -/
def c10g : TorchGrammar := (gEmpty.addObject "Z" zProd).addObject "A" aProd

/-- C10 witness: with A's reference to Z current and cache 16, accepting 16
pushes the Z frame at pointer 0 and the refreshed cache is again 16. -/
theorem c10_witness :
    stepSlot c10g 16 ⟨[⟨1, 1, 0⟩], [1], [16]⟩ =
      some (⟨[⟨0, 0, 0⟩, ⟨1, 1, 0⟩], [1, 16], [16]⟩, true) ∧
    refreshSlot c10g [⟨0, 0, 0⟩, ⟨1, 1, 0⟩] =
      some ([⟨0, 0, 0⟩, ⟨1, 1, 0⟩], [16]) := by
  have h := c10_ref_double_accept c10g ⟨[⟨1, 1, 0⟩], [1], [16]⟩ 16 ⟨1, 1, 0⟩ []
      "A" "Z" aProd zProd (.lit 16) [16] 0 rfl (by decide) rfl rfl rfl (by decide)
      rfl rfl rfl (by decide) (by decide) (by decide)
  exact ⟨h.1, h.2⟩

end Token2Json
